import Mathlib

/-!
# Verification of the pollution-dashboard data pipeline

A shallow embedding of the data-transform core of `interactive.py`:
missing-value cleaning (mean / median / mode fill, drop-rows), duplicate
removal, group-by mean aggregation, top-N ranking, IQR outlier detection
and the Pearson correlation matrix, together with theorems settling the
specification claims about them.

Tabular values are embedded as `Option ℚ` (a `none` models a pandas
`NaN` missing cell); datasets are ordered lists of rows.  The file is
laid out as definitions first (the embedding of the program), then the
theorems about them.
-/

namespace Pipeline

/-- A dataset row with the five declared columns of the pollution schema.
Each cell is optional: `none` models a missing value (pandas `NaN`). -/
structure Row where
  city : Option String
  pollutant_id : Option String
  pollutant_min : Option ℚ
  pollutant_max : Option ℚ
  pollutant_avg : Option ℚ
deriving DecidableEq, Repr

/-- The three numeric pollutant columns (`num_cols` in the source). -/
inductive NumCol where
  | pmin
  | pmax
  | pavg
deriving DecidableEq, Repr

/-- Read one of the three numeric columns from a row (`data[col]`). -/
def getCol : NumCol → Row → Option ℚ
  | .pmin, r => r.pollutant_min
  | .pmax, r => r.pollutant_max
  | .pavg, r => r.pollutant_avg

/-- Overwrite one of the three numeric columns of a row
(`data[col] = ...`). -/
def setCol : NumCol → Row → Option ℚ → Row
  | .pmin, r, v => { r with pollutant_min := v }
  | .pmax, r, v => { r with pollutant_max := v }
  | .pavg, r, v => { r with pollutant_avg := v }

/-- The non-missing entries of one numeric column of the dataset
(what pandas reductions such as `mean`/`median`/`mode` operate on,
since they skip `NaN`). -/
def colVals (data : List Row) (c : NumCol) : List ℚ :=
  data.filterMap (getCol c)

/-- A row has a missing value in some column of the schema
(the per-row condition of `DataFrame.dropna`). -/
def rowHasNA (r : Row) : Bool :=
  r.city.isNone || r.pollutant_id.isNone || r.pollutant_min.isNone ||
    r.pollutant_max.isNone || r.pollutant_avg.isNone

/-- `data.dropna()` (the "Drop Rows" branch): remove every row with a
missing value in ANY column of the schema. -/
def dropna (data : List Row) : List Row :=
  data.filter (fun r => !rowHasNA r)

/-! ## Generic stable insertion sort

Used to embed `np.sort` (inside `np.percentile` / `Series.median` /
`Series.mode`) and `Series.sort_values`.  The sort is a stable
comparison sort: an element `x` is inserted before the first `y` with
`le x y`, so elements that compare equal keep their input order. -/

/-- Insert `x` before the first element `y` of `l` with `le x y = true`. -/
def insertLe {α : Type} (le : α → α → Bool) (x : α) : List α → List α
  | [] => [x]
  | y :: ys => if le x y then x :: y :: ys else y :: insertLe le x ys

/-- Stable insertion sort with respect to the boolean comparison `le`. -/
def isortBy {α : Type} (le : α → α → Bool) : List α → List α
  | [] => []
  | x :: xs => insertLe le x (isortBy le xs)

/-- Sort a list of rationals ascending (`np.sort`). -/
def sortAsc (l : List ℚ) : List ℚ :=
  isortBy (fun x y => decide (x ≤ y)) l

/-! ## Column statistics (`Series.mean`, `Series.median`, `Series.mode`)

Each takes the list of NON-missing values of a column (pandas skips
`NaN`) and returns `none` exactly when pandas would produce `NaN`
(or, for `mode()[0]`, raise). -/

/-- `Series.mean()` over the non-missing values: arithmetic mean, `NaN`
(`none`) when there are no values. -/
def colMean (vs : List ℚ) : Option ℚ :=
  if vs = [] then none else some (vs.sum / vs.length)

/-- `Series.median()` over the non-missing values: middle element of the
sorted values for odd length, average of the two middle elements for
even length, `NaN` (`none`) when there are no values. -/
def colMedian (vs : List ℚ) : Option ℚ :=
  if vs = [] then none
  else
    some (
      let s := sortAsc vs
      let n := s.length
      if n % 2 = 1 then s.getD (n / 2) 0
      else (s.getD (n / 2 - 1) 0 + s.getD (n / 2) 0) / 2)

/-- The largest multiplicity occurring in `vs`. -/
def maxCount (vs : List ℚ) : ℕ :=
  (vs.map (fun v => vs.count v)).foldr max 0

/-- `Series.mode()[0]` over the non-missing values: pandas collects the
values of maximal multiplicity, sorts them ascending (`algorithms.mode`
ends with `np.sort`), and `[0]` takes the first, i.e. the smallest
most-frequent value.  `none` models the `KeyError` raised by `[0]` when
there are no values at all (empty mode series). -/
def colModeVal (vs : List ℚ) : Option ℚ :=
  (sortAsc vs.dedup).find? (fun d => decide (vs.count d = maxCount vs))

/-- Fill one cell: keep a present value, replace a missing one by the
fallback `m` (`Series.fillna`; filling with `NaN` leaves the cell
missing, which is what `m = none` does here). -/
def fillCell (v m : Option ℚ) : Option ℚ :=
  match v with
  | some x => some x
  | none => m

/-- `data[col] = data[col].fillna(m)`: fill every missing cell of one
column with `m`. -/
def fillna (data : List Row) (c : NumCol) (m : Option ℚ) : List Row :=
  data.map (fun r => setCol c r (fillCell (getCol c r) m))

/-- The fill loop `for col in num_cols: data[col] =
data[col].fillna(stat(data[col]))`, unrolled over the three numeric
columns; the statistic is recomputed on the current dataset at each
step, exactly as in the source. -/
def fillAll (stat : List ℚ → Option ℚ) (d : List Row) : List Row :=
  let d1 := fillna d .pmin (stat (colVals d .pmin))
  let d2 := fillna d1 .pmax (stat (colVals d1 .pmax))
  fillna d2 .pavg (stat (colVals d2 .pavg))

/-- The error raised by the mode branch: `data[col].mode()[0]` raises a
`KeyError` when the column has no non-missing value (empty mode
series).  The specification calls this condition `EmptyColumnError`. -/
inductive CleanError where
  | emptyColumn
deriving DecidableEq, Repr

/-- The missing-value strategies offered by the cleaning selectbox. -/
inductive Strategy where
  | mean
  | median
  | mode
  | dropRows
deriving DecidableEq, Repr

/-- The "Fill with Mode" loop, unrolled: each column is filled with
`data[col].mode()[0]` of the current dataset; the subscript `[0]`
raises (`.error .emptyColumn`) when that column has no non-missing
value. -/
def cleanMode (d : List Row) : Except CleanError (List Row) :=
  match colModeVal (colVals d .pmin) with
  | none => .error .emptyColumn
  | some m1 =>
    let d1 := fillna d .pmin (some m1)
    match colModeVal (colVals d1 .pmax) with
    | none => .error .emptyColumn
    | some m2 =>
      let d2 := fillna d1 .pmax (some m2)
      match colModeVal (colVals d2 .pavg) with
      | none => .error .emptyColumn
      | some m3 => .ok (fillna d2 .pavg (some m3))

/-- `Clean(dataset, strategy)`: the four branches of the cleaning
selectbox in the source. -/
def clean : Strategy → List Row → Except CleanError (List Row)
  | .mean, d => .ok (fillAll colMean d)
  | .median, d => .ok (fillAll colMedian d)
  | .mode, d => cleanMode d
  | .dropRows, d => .ok (dropna d)

/-- The dataset produced by a successful `clean` (`[]` on error). -/
def cleanResult (s : Strategy) (d : List Row) : List Row :=
  ((clean s d).toOption).getD []

/-- Every row has all three numeric pollutant columns present. -/
def noMissingNumeric (d : List Row) : Bool :=
  d.all (fun r => (getCol .pmin r).isSome && (getCol .pmax r).isSome &&
    (getCol .pavg r).isSome)

/-- Claim-side version of the drop-rows strategy, written from the
specification's words: remove exactly the rows with a missing value in
one of the THREE NUMERIC columns, retaining rows whose missing values
lie only in other columns.  To be compared with `dropna`. -/
def dropRowsSpec (data : List Row) : List Row :=
  data.filter (fun r => (getCol .pmin r).isSome && (getCol .pmax r).isSome &&
    (getCol .pavg r).isSome)

/-- Claim-side version of the mode fill, written from the
specification's words: every missing cell of each numeric column is
replaced by that column's most-frequent value (smallest on ties),
computed on the input dataset.  To be compared with `clean .mode`. -/
def modeFillSpec (data : List Row) : List Row :=
  data.map (fun r =>
    setCol .pavg
      (setCol .pmax
        (setCol .pmin r (fillCell (getCol .pmin r) (colModeVal (colVals data .pmin))))
        (fillCell (getCol .pmax r) (colModeVal (colVals data .pmax))))
      (fillCell (getCol .pavg r) (colModeVal (colVals data .pavg))))

/-! ## Duplicate removal (`data.drop_duplicates()`) -/

/-- Worker for `drop_duplicates`: `seen` is the set of rows already
encountered; a row equal to a seen row is dropped, otherwise it is kept
and recorded.  This is the `keep='first'` semantics of pandas
(`duplicated()` marks a row iff an equal row occurred earlier). -/
def dedupGo {α : Type} [DecidableEq α] (seen : List α) : List α → List α
  | [] => []
  | x :: xs => if x ∈ seen then dedupGo seen xs else x :: dedupGo (x :: seen) xs

/-- `data.drop_duplicates()`: remove every row that is identical (across
all columns) to an earlier row, keeping first occurrences in order. -/
def drop_duplicates {α : Type} [DecidableEq α] (l : List α) : List α :=
  dedupGo [] l

/-- Claim-side version of deduplication, written from the
specification's words: the first row is kept (it has no earlier equal
row), and every later row identical to it is removed; the remaining
rows are treated the same way recursively, so exactly the rows with an
earlier identical row disappear, first occurrences survive, and the
relative order is untouched.  To be compared with `drop_duplicates`. -/
def dedupSpec {α : Type} [DecidableEq α] : List α → List α
  | [] => []
  | x :: xs => x :: (dedupSpec xs).filter (fun a => decide (a ≠ x))

/-! ## Group-by mean and top-N ranking

`data.groupby(key)[val].mean()` produces one entry per distinct key, in
ascending key order, whose value is the mean of the non-missing values
of the group (NaN for an all-missing group).
`.sort_values(ascending=False).head(n)` then ranks the view. -/

section Grouping

variable {K : Type} [LinearOrder K] [DecidableEq K]

/-- The distinct keys of the rows, in ascending order (the index of a
pandas `groupby` result). -/
def keysOf (rows : List (K × Option ℚ)) : List K :=
  isortBy (fun a b => decide (a ≤ b)) (drop_duplicates (rows.map Prod.fst))

/-- The non-missing values of the group of `k`. -/
def groupVals (rows : List (K × Option ℚ)) (k : K) : List ℚ :=
  (rows.filter (fun r => decide (r.1 = k))).filterMap Prod.snd

/-- `rows.groupby(fst)[snd].mean()`: one entry per distinct key in
ascending key order, carrying the mean of the group's non-missing
values (`none` = NaN when the group has no values). -/
def groupbyMean (rows : List (K × Option ℚ)) : List (K × Option ℚ) :=
  (keysOf rows).map (fun k => (k, colMean (groupVals rows k)))

/-- First-match association lookup (the mapping read off a view). -/
def lookupKey (k : K) : List (K × Option ℚ) → Option (Option ℚ)
  | [] => none
  | (a, v) :: rest => if a = k then some v else lookupKey k rest

/-- `view.sort_values(ascending=False)`: pandas (`nargsort`) computes an
ASCENDING argsort of the values and then REVERSES the indexer to get the
descending order.  The underlying quicksort leaves the order of tied
values unspecified in general; on small arrays it degenerates to a
stable insertion sort, and the model fixes that behaviour: a stable
ascending sort by value, reversed.  Tied values therefore come out in
REVERSE input order (key-descending for a key-ascending view). -/
def sortValuesDesc (view : List (K × ℚ)) : List (K × ℚ) :=
  (isortBy (fun a b => decide (a.2 ≤ b.2)) view).reverse

/-- `Series.head(n)` semantics: the first `n` entries for `n ≥ 0`; for
negative `n`, all entries but the last `|n|`. -/
def pdHead {β : Type} (l : List β) (n : ℤ) : List β :=
  if 0 ≤ n then l.take n.toNat else l.take (l.length - (-n).toNat)

/-- `TopN(view, n) = view.sort_values(ascending=False).head(n)` (the
source instantiates `n = 10`). -/
def topN (view : List (K × ℚ)) (n : ℤ) : List (K × ℚ) :=
  pdHead (sortValuesDesc view) n

/-- The ranking order the program actually produces on a view with
strictly ascending keys: value strictly descending, tied values in
reverse input order, i.e. ties broken by key strictly DESCENDING
(the reversal of the stable ascending argsort). -/
def rankRev (a b : K × ℚ) : Prop :=
  b.2 < a.2 ∨ (a.2 = b.2 ∧ b.1 < a.1)

/-- The ascending counterpart of `rankRev` before the reversal: value
strictly ascending, ties broken by key strictly ascending (the order of
the stable ascending argsort on a key-ascending view). -/
def rankAsc (a b : K × ℚ) : Prop :=
  a.2 < b.2 ∨ (a.2 = b.2 ∧ a.1 < b.1)

end Grouping

/-! ## IQR outlier detection (tab3) -/

/-- `NaN`-aware strict less-than: any comparison with a missing value is
false, as for IEEE/NumPy comparisons with `NaN`. -/
def naLt (a b : Option ℚ) : Bool :=
  match a, b with
  | some x, some y => decide (x < y)
  | _, _ => false

/-- `NaN`-aware less-or-equal: any comparison with a missing value is
false. -/
def naLe (a b : Option ℚ) : Bool :=
  match a, b with
  | some x, some y => decide (x ≤ y)
  | _, _ => false

/-- `np.percentile(a, q)` with the default linear-interpolation method:
with `s` the sorted values and `pos = q/100 * (len - 1)`, interpolate
linearly between `s[⌊pos⌋]` and `s[⌊pos⌋ + 1]`. -/
def npPercentile (a : List ℚ) (q : ℚ) : ℚ :=
  let s := sortAsc a
  let pos : ℚ := q / 100 * ((s.length : ℚ) - 1)
  let i : ℕ := (⌊pos⌋).toNat
  s.getD i 0 + (pos - (⌊pos⌋ : ℚ)) * (s.getD (i + 1) 0 - s.getD i 0)

/-- `np.percentile` applied to a raw column: a missing value anywhere in
the column (or an empty column) makes the result `NaN` (`none`), since
`np.percentile` propagates `NaN`. -/
def npPercentileNaN (vals : List (Option ℚ)) (q : ℚ) : Option ℚ :=
  if vals = [] ∨ vals.any (fun v => v.isNone) then none
  else some (npPercentile (vals.filterMap id) q)

/-- The `pollutant_avg` column as stored (missing cells included). -/
def avgColumn (data : List Row) : List (Option ℚ) :=
  data.map (fun r => r.pollutant_avg)

/-- `Q1 = np.percentile(data['pollutant_avg'], 25)`. -/
def q1B (data : List Row) : Option ℚ :=
  npPercentileNaN (avgColumn data) 25

/-- `Q3 = np.percentile(data['pollutant_avg'], 75)`. -/
def q3B (data : List Row) : Option ℚ :=
  npPercentileNaN (avgColumn data) 75

/-- `lower = Q1 - 1.5 * IQR` with `IQR = Q3 - Q1` (NaN-propagating). -/
def lowerB (data : List Row) : Option ℚ :=
  match q1B data, q3B data with
  | some q1, some q3 => some (q1 - 3 / 2 * (q3 - q1))
  | _, _ => none

/-- `upper = Q3 + 1.5 * IQR` with `IQR = Q3 - Q1` (NaN-propagating). -/
def upperB (data : List Row) : Option ℚ :=
  match q1B data, q3B data with
  | some q1, some q3 => some (q3 + 3 / 2 * (q3 - q1))
  | _, _ => none

/-- `outliers = data[(avg < lower) | (avg > upper)]`: strict
comparisons, so missing values (and missing bounds) never qualify. -/
def outlierRows (data : List Row) : List Row :=
  data.filter (fun r =>
    naLt r.pollutant_avg (lowerB data) || naLt (upperB data) r.pollutant_avg)

/-- `clean_data = data[(avg >= lower) & (avg <= upper)]`: inclusive
comparisons, again false on missing values. -/
def cleanRows (data : List Row) : List Row :=
  data.filter (fun r =>
    naLe (lowerB data) r.pollutant_avg && naLe r.pollutant_avg (upperB data))

/-! ## Pearson correlation (`data[num_cols].corr()`)

pandas `corr` works pairwise-complete: for each pair of columns only
the rows where both cells are present enter; with centred sums
`sxy, sxx, syy` the entry is `sxy / sqrt(sxx * syy)`, and `NaN` when
the divisor is zero (in particular for any zero-variance column). -/

/-- The pairwise-complete observations of two columns. -/
def pairwiseComplete (xs ys : List (Option ℚ)) : List (ℚ × ℚ) :=
  (xs.zip ys).filterMap (fun p =>
    match p.1, p.2 with
    | some a, some b => some (a, b)
    | _, _ => none)

/-- Arithmetic mean of a list of rationals (`0` on the empty list, which
only feeds vacuous centred sums). -/
def meanOf (l : List ℚ) : ℚ := l.sum / l.length

/-- Centred cross sum `Σ (x - x̄)(y - ȳ)` of the complete pairs. -/
def sxy (ps : List (ℚ × ℚ)) : ℚ :=
  (ps.map (fun p =>
    (p.1 - meanOf (ps.map Prod.fst)) * (p.2 - meanOf (ps.map Prod.snd)))).sum

/-- Centred square sum `Σ (x - x̄)²` of the first components. -/
def sxx (ps : List (ℚ × ℚ)) : ℚ :=
  (ps.map (fun p => (p.1 - meanOf (ps.map Prod.fst)) ^ 2)).sum

/-- Centred square sum `Σ (y - ȳ)²` of the second components. -/
def syy (ps : List (ℚ × ℚ)) : ℚ :=
  (ps.map (fun p => (p.2 - meanOf (ps.map Prod.snd)) ^ 2)).sum

/-- One entry of `data[num_cols].corr()`: the Pearson coefficient of two
columns over their pairwise-complete observations; `none` (NaN) when
the divisor `sqrt(sxx * syy)` is zero, as in pandas `nancorr` — also on
the diagonal for a zero-variance column. -/
noncomputable def corrEntry (xs ys : List (Option ℚ)) : Option ℝ :=
  let ps := pairwiseComplete xs ys
  if sxx ps * syy ps = 0 then none
  else some ((sxy ps : ℝ) / Real.sqrt ((sxx ps * syy ps : ℚ) : ℝ))

/-- One numeric column of the dataset, missing cells included. -/
def colOpt (data : List Row) (c : NumCol) : List (Option ℚ) :=
  data.map (getCol c)

/-- The `(c, c')` entry of the correlation heatmap's matrix. -/
noncomputable def corrMatrixEntry (data : List Row) (c c' : NumCol) : Option ℝ :=
  corrEntry (colOpt data c) (colOpt data c')

/-! ## Concrete datasets used in the claim instances -/

/-- A row missing only its `city` cell; all numeric cells present. -/
def rowX : Row := ⟨none, some "p", some 1, some 2, some 3⟩

/-- A row whose `pollutant_min` cell is missing. -/
def rowM : Row := ⟨some "c", some "p", none, some 1, some 2⟩

/-- A fully-present row with the given `pollutant_avg`. -/
def mkRow (v : ℚ) : Row := ⟨some "c", some "p", some 1, some 1, some v⟩

/-- The specification's outlier example column `[1,2,3,4,5,100]`. -/
def rows6 : List Row :=
  [mkRow 1, mkRow 2, mkRow 3, mkRow 4, mkRow 5, mkRow 100]

/-- A row whose `pollutant_avg` cell is missing. -/
def rowNA : Row := ⟨some "c", some "p", some 1, some 1, none⟩

/-- A dataset whose `pollutant_avg` values `[5, 3, _, 3, 5]` have a
mode tie between `3` and `5`, with one missing cell. -/
def dataTie : List Row := [mkRow 5, mkRow 3, rowNA, mkRow 3, mkRow 5]

/-! ## General lemmas about the sort -/

theorem mem_insertLe {α : Type} (le : α → α → Bool) (x w : α) :
    ∀ l : List α, w ∈ insertLe le x l ↔ w = x ∨ w ∈ l := by
  intro l
  induction l with
  | nil => simp [insertLe]
  | cons y ys ih =>
      by_cases h : le x y = true
      · simp [insertLe, h]
      · simp only [insertLe, if_neg h, List.mem_cons, ih]
        tauto

theorem insertLe_perm {α : Type} (le : α → α → Bool) (x : α) :
    ∀ l : List α, (insertLe le x l).Perm (x :: l) := by
  intro l
  induction l with
  | nil => simp [insertLe]
  | cons y ys ih =>
      by_cases h : le x y = true
      · simp [insertLe, h]
      · simpa [insertLe, h] using ((ih.cons y).trans (List.Perm.swap x y ys))

theorem isortBy_perm {α : Type} (le : α → α → Bool) :
    ∀ l : List α, (isortBy le l).Perm l := by
  intro l
  induction l with
  | nil => simp [isortBy]
  | cons x xs ih =>
      exact (insertLe_perm le x (isortBy le xs)).trans (ih.cons x)

theorem mem_isortBy {α : Type} (le : α → α → Bool) (l : List α) (w : α) :
    w ∈ isortBy le l ↔ w ∈ l :=
  (isortBy_perm le l).mem_iff

/-- Inserting into a sorted list keeps it sorted, provided the comparison
is total and transitive. -/
theorem insertLe_pairwise {α : Type} (le : α → α → Bool)
    (htot : ∀ a b, le a b = true ∨ le b a = true)
    (htrans : ∀ a b c, le a b = true → le b c = true → le a c = true)
    (x : α) : ∀ l : List α, l.Pairwise (fun a b => le a b = true) →
    (insertLe le x l).Pairwise (fun a b => le a b = true) := by
  intro l hl
  induction l with
  | nil => simp [insertLe]
  | cons y ys ih =>
      rcases List.pairwise_cons.mp hl with ⟨hy, hys⟩
      by_cases h : le x y = true
      · rw [insertLe, if_pos h]
        refine List.pairwise_cons.mpr ⟨?_, hl⟩
        intro z hz
        rcases List.mem_cons.mp hz with rfl | hz
        · exact h
        · exact htrans x y z h (hy z hz)
      · rw [insertLe, if_neg h]
        refine List.pairwise_cons.mpr ⟨?_, ih hys⟩
        intro z hz
        rcases (mem_insertLe le x z ys).mp hz with rfl | hz
        · rcases htot y z with hyz | hzy
          · exact hyz
          · exact absurd hzy h
        · exact hy z hz

theorem isortBy_pairwise {α : Type} (le : α → α → Bool)
    (htot : ∀ a b, le a b = true ∨ le b a = true)
    (htrans : ∀ a b c, le a b = true → le b c = true → le a c = true) :
    ∀ l : List α, (isortBy le l).Pairwise (fun a b => le a b = true) := by
  intro l
  induction l with
  | nil => simp [isortBy]
  | cons x xs ih =>
      exact insertLe_pairwise le htot htrans x (isortBy le xs) ih

theorem sortAsc_pairwise (l : List ℚ) :
    (sortAsc l).Pairwise (fun a b => a ≤ b) := by
  have h := isortBy_pairwise (fun x y : ℚ => decide (x ≤ y))
    (fun a b => by rcases le_total a b with h | h <;> simp [h])
    (fun a b c hab hbc => by
      simp only [decide_eq_true_eq] at *
      exact le_trans hab hbc) l
  exact h.imp (fun h => by simpa using h)

theorem mem_sortAsc (l : List ℚ) (w : ℚ) : w ∈ sortAsc l ↔ w ∈ l :=
  mem_isortBy _ l w

/-! ## Lemmas about columns and filling -/

theorem getCol_setCol_same (c : NumCol) (r : Row) (v : Option ℚ) :
    getCol c (setCol c r v) = v := by
  cases c <;> rfl

theorem getCol_setCol_ne (c c' : NumCol) (h : c ≠ c') (r : Row) (v : Option ℚ) :
    getCol c (setCol c' r v) = getCol c r := by
  cases c <;> cases c' <;> first | rfl | exact absurd rfl h

theorem colVals_fillna_ne (c c' : NumCol) (h : c ≠ c') (d : List Row)
    (m : Option ℚ) : colVals (fillna d c' m) c = colVals d c := by
  induction d with
  | nil => rfl
  | cons r d ih =>
      simp only [colVals, fillna, List.map_cons, List.filterMap_cons] at *
      rw [getCol_setCol_ne c c' h]
      cases hv : getCol c r <;> simp [hv, ih]

theorem mem_colVals_fillna_self (c : NumCol) (d : List Row) (m : Option ℚ)
    (v : ℚ) (hv : v ∈ colVals d c) : v ∈ colVals (fillna d c m) c := by
  induction d with
  | nil => simp [colVals] at hv
  | cons r d ih =>
      simp only [colVals, fillna, List.map_cons, List.filterMap_cons] at *
      rw [getCol_setCol_same]
      cases hr : getCol c r with
      | none =>
          rw [hr] at hv
          cases hm : (fillCell none m) <;> simp_all [ih]
      | some x =>
          rw [hr] at hv
          simp only [fillCell]
          simp only [List.mem_cons] at hv ⊢
          tauto

theorem colVals_fillna_self_ne_nil (c : NumCol) (d : List Row) (m : Option ℚ)
    (h : colVals d c ≠ []) : colVals (fillna d c m) c ≠ [] := by
  rcases List.exists_mem_of_ne_nil _ h with ⟨v, hv⟩
  exact List.ne_nil_of_mem (mem_colVals_fillna_self c d m v hv)

theorem isSome_fillna_self (c : NumCol) (d : List Row) (m : Option ℚ)
    (hm : m.isSome = true) :
    ∀ r ∈ fillna d c m, (getCol c r).isSome = true := by
  intro r hr
  rcases List.mem_map.mp hr with ⟨r0, _, rfl⟩
  rw [getCol_setCol_same]
  cases hv : getCol c r0 <;> simp [fillCell, hv, hm]

theorem isSome_fillna_pres (c c' : NumCol) (d : List Row) (m : Option ℚ)
    (h : ∀ r ∈ d, (getCol c r).isSome = true) :
    ∀ r ∈ fillna d c' m, (getCol c r).isSome = true := by
  intro r hr
  rcases List.mem_map.mp hr with ⟨r0, hr0, rfl⟩
  by_cases hc : c = c'
  · subst hc
    rw [getCol_setCol_same]
    rcases Option.isSome_iff_exists.mp (h r0 hr0) with ⟨x, hx⟩
    simp [fillCell, hx]
  · rw [getCol_setCol_ne c c' hc]
    exact h r0 hr0

/-! ## Lemmas about the column statistics -/

theorem colMean_isSome (vs : List ℚ) (h : vs ≠ []) : (colMean vs).isSome = true := by
  simp [colMean, h]

theorem colMedian_isSome (vs : List ℚ) (h : vs ≠ []) :
    (colMedian vs).isSome = true := by
  simp [colMedian, h]

theorem foldr_max_mem : ∀ l : List ℕ, l ≠ [] → l.foldr max 0 ∈ l := by
  intro l
  induction l with
  | nil => intro h; exact absurd rfl h
  | cons a rest ih =>
      intro _
      cases rest with
      | nil => simp
      | cons b r2 =>
          rcases max_choice a ((b :: r2).foldr max 0) with h | h
          · simp only [List.foldr_cons] at *
            rw [h]; exact List.mem_cons_self _ _
          · simp only [List.foldr_cons] at *
            rw [h]
            exact List.mem_cons_of_mem _ (ih (by simp))

theorem le_foldr_max (l : List ℕ) (x : ℕ) (hx : x ∈ l) : x ≤ l.foldr max 0 := by
  induction l with
  | nil => simp at hx
  | cons a rest ih =>
      rcases List.mem_cons.mp hx with rfl | hx
      · exact le_max_left _ _
      · exact le_trans (ih hx) (le_max_right _ _)

theorem maxCount_le (vs : List ℚ) (w : ℚ) (hw : w ∈ vs) :
    vs.count w ≤ maxCount vs :=
  le_foldr_max _ _ (List.mem_map.mpr ⟨w, hw, rfl⟩)

theorem maxCount_attained (vs : List ℚ) (h : vs ≠ []) :
    ∃ v ∈ vs, vs.count v = maxCount vs := by
  have hne : vs.map (fun v => vs.count v) ≠ [] := by
    simpa using h
  rcases List.mem_map.mp (foldr_max_mem _ hne) with ⟨v, hv, hc⟩
  exact ⟨v, hv, hc⟩

theorem colModeVal_isSome (vs : List ℚ) (h : vs ≠ []) :
    (colModeVal vs).isSome = true := by
  rcases maxCount_attained vs h with ⟨v, hv, hc⟩
  apply List.find?_isSome.mpr
  refine ⟨v, ?_, by simpa using hc⟩
  exact (mem_sortAsc _ _).mpr (List.mem_dedup.mpr hv)

theorem find?_sorted_min {p : ℚ → Bool} {m : ℚ} :
    ∀ l : List ℚ, l.Pairwise (fun a b => a ≤ b) → l.find? p = some m →
    ∀ w ∈ l, p w = true → m ≤ w := by
  intro l
  induction l with
  | nil => intro _ h; simp at h
  | cons a rest ih =>
      intro hl hf w hw hpw
      rcases List.pairwise_cons.mp hl with ⟨ha, hrest⟩
      cases hpa : p a with
      | true =>
          rw [List.find?_cons_of_pos _ hpa] at hf
          obtain rfl : a = m := by injection hf
          rcases List.mem_cons.mp hw with rfl | hw
          · exact le_refl _
          · exact ha w hw
      | false =>
          rw [List.find?_cons_of_neg _ (by simp [hpa])] at hf
          rcases List.mem_cons.mp hw with rfl | hw
          · rw [hpa] at hpw; exact absurd hpw (by simp)
          · exact ih hrest hf w hw hpw

/-- Characterisation of `mode()[0]`: it is a value of the column, of
maximal multiplicity, and the smallest among the values of maximal
multiplicity. -/
theorem colModeVal_char (vs : List ℚ) (m : ℚ) (h : colModeVal vs = some m) :
    m ∈ vs ∧ (∀ w ∈ vs, vs.count w ≤ vs.count m) ∧
      (∀ w ∈ vs, vs.count w = vs.count m → m ≤ w) := by
  have hmem : m ∈ sortAsc vs.dedup := List.mem_of_find?_eq_some h
  have hmvs : m ∈ vs := List.mem_dedup.mp ((mem_sortAsc _ _).mp hmem)
  have hp : vs.count m = maxCount vs := by
    have := List.find?_some h
    simpa using this
  refine ⟨hmvs, ?_, ?_⟩
  · intro w hw
    rw [hp]
    exact maxCount_le vs w hw
  · intro w hw hcw
    have hwdedup : w ∈ sortAsc vs.dedup :=
      (mem_sortAsc _ _).mpr (List.mem_dedup.mpr hw)
    exact find?_sorted_min _ (sortAsc_pairwise _) h w hwdedup
      (by simp [hcw, hp])

/-! ## Lemmas about the fill strategies -/

theorem fillCell_isSome (v : Option ℚ) (m : ℚ) :
    (fillCell v (some m)).isSome = true := by
  cases v <;> rfl

theorem noMissing_fillAll (stat : List ℚ → Option ℚ) (d : List Row)
    (hstat : ∀ vs : List ℚ, vs ≠ [] → (stat vs).isSome = true)
    (h1 : colVals d .pmin ≠ []) (h2 : colVals d .pmax ≠ [])
    (h3 : colVals d .pavg ≠ []) :
    noMissingNumeric (fillAll stat d) = true := by
  simp only [fillAll]
  set D1 := fillna d .pmin (stat (colVals d .pmin)) with hD1
  set D2 := fillna D1 .pmax (stat (colVals D1 .pmax)) with hD2
  set D3 := fillna D2 .pavg (stat (colVals D2 .pavg)) with hD3
  have hc2 : colVals D1 .pmax = colVals d .pmax :=
    colVals_fillna_ne .pmax .pmin (by decide) d _
  have hc3 : colVals D2 .pavg = colVals d .pavg := by
    rw [hD2, colVals_fillna_ne .pavg .pmax (by decide) D1 _, hD1,
      colVals_fillna_ne .pavg .pmin (by decide) d _]
  have hp1 : ∀ r ∈ D1, (getCol .pmin r).isSome = true :=
    isSome_fillna_self .pmin d _ (hstat _ h1)
  have hp1b : ∀ r ∈ D2, (getCol .pmin r).isSome = true :=
    isSome_fillna_pres .pmin .pmax D1 _ hp1
  have hp1c : ∀ r ∈ D3, (getCol .pmin r).isSome = true :=
    isSome_fillna_pres .pmin .pavg D2 _ hp1b
  have hp2 : ∀ r ∈ D2, (getCol .pmax r).isSome = true :=
    isSome_fillna_self .pmax D1 _ (by rw [hc2]; exact hstat _ h2)
  have hp2b : ∀ r ∈ D3, (getCol .pmax r).isSome = true :=
    isSome_fillna_pres .pmax .pavg D2 _ hp2
  have hp3 : ∀ r ∈ D3, (getCol .pavg r).isSome = true :=
    isSome_fillna_self .pavg D2 _ (by rw [hc3]; exact hstat _ h3)
  apply List.all_eq_true.mpr
  intro r hr
  simp only [Bool.and_eq_true]
  exact ⟨⟨hp1c r hr, hp2b r hr⟩, hp3 r hr⟩

/-- The unrolled mode loop on a dataset whose three numeric columns all
have at least one value: it succeeds and produces exactly the fill
described by the specification (each missing cell replaced by its
column's mode value). -/
theorem cleanMode_ok_spec (d : List Row)
    (h1 : colVals d .pmin ≠ []) (h2 : colVals d .pmax ≠ [])
    (h3 : colVals d .pavg ≠ []) :
    cleanMode d = .ok (modeFillSpec d) := by
  rcases Option.isSome_iff_exists.mp (colModeVal_isSome _ h1) with ⟨m1, e1⟩
  have hc2 : colVals (fillna d .pmin (some m1)) .pmax = colVals d .pmax :=
    colVals_fillna_ne .pmax .pmin (by decide) d _
  rcases Option.isSome_iff_exists.mp (colModeVal_isSome _ h2) with ⟨m2, e2⟩
  have hc3 : colVals (fillna (fillna d .pmin (some m1)) .pmax (some m2)) .pavg
      = colVals d .pavg := by
    rw [colVals_fillna_ne .pavg .pmax (by decide) _ _,
      colVals_fillna_ne .pavg .pmin (by decide) d _]
  rcases Option.isSome_iff_exists.mp (colModeVal_isSome _ h3) with ⟨m3, e3⟩
  simp only [cleanMode, e1, hc2, e2, hc3, e3]
  congr 1
  simp only [modeFillSpec, fillna, List.map_map, e1, e2, e3]
  apply List.map_congr_left
  intro r _
  simp only [Function.comp]
  rw [getCol_setCol_ne .pmax .pmin (by decide),
    getCol_setCol_ne .pavg .pmax (by decide),
    getCol_setCol_ne .pavg .pmin (by decide)]

/-- The unrolled mode loop fails with the empty-column error as soon as
one of the three numeric columns has no non-missing value. -/
theorem cleanMode_err (d : List Row)
    (h : colVals d .pmin = [] ∨ colVals d .pmax = [] ∨ colVals d .pavg = []) :
    cleanMode d = .error .emptyColumn := by
  rcases h with h | h | h
  · have e : colModeVal (colVals d .pmin) = none := by rw [h]; rfl
    simp [cleanMode, e]
  · cases e1 : colModeVal (colVals d .pmin) with
    | none => simp [cleanMode, e1]
    | some m1 =>
        have h' : colVals (fillna d .pmin (some m1)) .pmax = [] := by
          rw [colVals_fillna_ne .pmax .pmin (by decide) d _]; exact h
        have e : colModeVal (colVals (fillna d .pmin (some m1)) .pmax) = none := by
          rw [h']; rfl
        simp [cleanMode, e1, e]
  · cases e1 : colModeVal (colVals d .pmin) with
    | none => simp [cleanMode, e1]
    | some m1 =>
        cases e2 : colModeVal (colVals (fillna d .pmin (some m1)) .pmax) with
        | none => simp [cleanMode, e1, e2]
        | some m2 =>
            have h' : colVals (fillna (fillna d .pmin (some m1)) .pmax (some m2))
                .pavg = [] := by
              rw [colVals_fillna_ne .pavg .pmax (by decide) _ _,
                colVals_fillna_ne .pavg .pmin (by decide) d _]
              exact h
            have e : colModeVal (colVals (fillna (fillna d .pmin (some m1))
                .pmax (some m2)) .pavg) = none := by rw [h']; rfl
            simp [cleanMode, e1, e2, e]

theorem noMissing_modeFillSpec (d : List Row)
    (h1 : colVals d .pmin ≠ []) (h2 : colVals d .pmax ≠ [])
    (h3 : colVals d .pavg ≠ []) :
    noMissingNumeric (modeFillSpec d) = true := by
  rcases Option.isSome_iff_exists.mp (colModeVal_isSome _ h1) with ⟨m1, e1⟩
  rcases Option.isSome_iff_exists.mp (colModeVal_isSome _ h2) with ⟨m2, e2⟩
  rcases Option.isSome_iff_exists.mp (colModeVal_isSome _ h3) with ⟨m3, e3⟩
  apply List.all_eq_true.mpr
  intro r hr
  rcases List.mem_map.mp hr with ⟨r0, _, rfl⟩
  simp only [Bool.and_eq_true]
  refine ⟨⟨?_, ?_⟩, ?_⟩
  · rw [getCol_setCol_ne .pmin .pavg (by decide),
      getCol_setCol_ne .pmin .pmax (by decide), getCol_setCol_same, e1]
    exact fillCell_isSome _ _
  · rw [getCol_setCol_ne .pmax .pavg (by decide), getCol_setCol_same, e2]
    exact fillCell_isSome _ _
  · rw [getCol_setCol_same, e3]
    exact fillCell_isSome _ _

/-- **C2** counterexample: on a dataset whose `pollutant_min` column has
no non-missing value, `clean` with the mean strategy succeeds but the
returned dataset still has a missing value in `pollutant_min`
(`fillna(NaN)` is a no-op), so the claimed "zero missing values for
every dataset and every fill strategy" is false. -/
theorem claim_C2_counterexample :
    clean .mean [rowM] = .ok (cleanResult .mean [rowM]) ∧
    noMissingNumeric (cleanResult .mean [rowM]) = false := by
  constructor <;> rfl

/-- **C2** (amended): provided each of the three numeric pollutant
columns has at least one non-missing value, every fill strategy (mean,
median, mode) succeeds and returns a dataset with zero missing values
in each of the three numeric pollutant columns. -/
theorem claim_C2_fill_no_missing (data : List Row) (s : Strategy)
    (hs : s ≠ .dropRows)
    (h1 : colVals data .pmin ≠ []) (h2 : colVals data .pmax ≠ [])
    (h3 : colVals data .pavg ≠ []) :
    clean s data = .ok (cleanResult s data) ∧
    noMissingNumeric (cleanResult s data) = true := by
  cases s with
  | dropRows => exact absurd rfl hs
  | mean =>
      exact ⟨rfl, noMissing_fillAll colMean data colMean_isSome h1 h2 h3⟩
  | median =>
      exact ⟨rfl, noMissing_fillAll colMedian data colMedian_isSome h1 h2 h3⟩
  | mode =>
      have hok : clean .mode data = .ok (modeFillSpec data) :=
        cleanMode_ok_spec data h1 h2 h3
      have hres : cleanResult .mode data = modeFillSpec data := by
        simp only [cleanResult, hok]; rfl
      rw [hres]
      refine ⟨?_, noMissing_modeFillSpec data h1 h2 h3⟩
      rw [hok]

/-- **C3** counterexample: the `pollutant_min` column of `[rowM]` has no
non-missing value, yet `clean` with the mean strategy does NOT fail
with an empty-column error — it succeeds (`fillna(mean)` of an
all-missing column silently leaves it missing). -/
theorem claim_C3_counterexample :
    colVals [rowM] .pmin = [] ∧ clean .mean [rowM] = .ok [rowM] := by
  constructor <;> rfl

/-- **C3** (amended): when one of the three numeric pollutant columns
has zero non-missing values, only the MODE strategy fails (with the
empty-column error, the `KeyError` of `mode()[0]`); the mean and median
strategies succeed, silently leaving the empty column's missing values
in place.  When all three columns have a non-missing value, all three
fill strategies succeed. -/
theorem claim_C3_empty_column (data : List Row) :
    ((colVals data .pmin = [] ∨ colVals data .pmax = [] ∨
        colVals data .pavg = []) →
      clean .mode data = .error .emptyColumn ∧
      (∃ d, clean .mean data = .ok d) ∧ (∃ d, clean .median data = .ok d)) ∧
    ((colVals data .pmin ≠ [] ∧ colVals data .pmax ≠ [] ∧
        colVals data .pavg ≠ []) →
      (∃ d, clean .mode data = .ok d) ∧ (∃ d, clean .mean data = .ok d) ∧
      (∃ d, clean .median data = .ok d)) := by
  constructor
  · intro h
    exact ⟨cleanMode_err data h, ⟨_, rfl⟩, ⟨_, rfl⟩⟩
  · rintro ⟨h1, h2, h3⟩
    exact ⟨⟨_, cleanMode_ok_spec data h1 h2 h3⟩, ⟨_, rfl⟩, ⟨_, rfl⟩⟩

/-- **C3** witness: on the concrete dataset `[rowM]` (empty
`pollutant_min` column) the mode strategy fails with the empty-column
error. -/
theorem claim_C3_witness : clean .mode [rowM] = .error .emptyColumn :=
  ((claim_C3_empty_column [rowM]).1 (Or.inl rfl)).1

/-- **C2** witness: a concrete dataset with all three numeric columns
non-empty comes back from the mean strategy with no missing numeric
values. -/
theorem claim_C2_witness :
    noMissingNumeric (cleanResult .mean [rowNA, mkRow 2]) = true :=
  (claim_C2_fill_no_missing [rowNA, mkRow 2] .mean (by decide)
    (by decide) (by decide) (by decide)).2

/-- **C4**: with every numeric column non-empty, the mode strategy
replaces each missing cell of each numeric column by that column's
`mode()[0]` value, and that value is a value of the column, has maximal
multiplicity, and is the smallest among the values of maximal
multiplicity (pandas sorts the tied modes ascending before `[0]`). -/
theorem claim_C4_mode_fill (data : List Row)
    (h1 : colVals data .pmin ≠ []) (h2 : colVals data .pmax ≠ [])
    (h3 : colVals data .pavg ≠ []) :
    clean .mode data = .ok (modeFillSpec data) ∧
    ∀ c : NumCol, ∃ m : ℚ, colModeVal (colVals data c) = some m ∧
      m ∈ colVals data c ∧
      (∀ w ∈ colVals data c, (colVals data c).count w ≤ (colVals data c).count m) ∧
      (∀ w ∈ colVals data c,
        (colVals data c).count w = (colVals data c).count m → m ≤ w) := by
  refine ⟨cleanMode_ok_spec data h1 h2 h3, ?_⟩
  intro c
  have hc : colVals data c ≠ [] := by cases c <;> assumption
  rcases Option.isSome_iff_exists.mp (colModeVal_isSome _ hc) with ⟨m, em⟩
  rcases colModeVal_char _ m em with ⟨hm, hmax, hmin⟩
  exact ⟨m, em, hm, hmax, hmin⟩

/-- **C4** witness: on the concrete dataset `dataTie` (whose
`pollutant_avg` values `[5,3,3,5]` tie between `3` and `5`), the mode
fill succeeds and produces exactly the specified fill; the missing
`pollutant_avg` cell receives the smaller tied mode `3`. -/
theorem claim_C4_witness :
    clean .mode dataTie = .ok (modeFillSpec dataTie) ∧
    (modeFillSpec dataTie).map (fun r => r.pollutant_avg) =
      [some 5, some 3, some 3, some 3, some 5] :=
  ⟨(claim_C4_mode_fill dataTie (by decide) (by decide) (by decide)).1,
    by decide⟩

/-! ## Lemmas about duplicate removal -/

theorem mem_dedupGo {α : Type} [DecidableEq α] (a : α) :
    ∀ (l seen : List α), a ∈ dedupGo seen l ↔ a ∈ l ∧ a ∉ seen := by
  intro l
  induction l with
  | nil => intro seen; simp [dedupGo]
  | cons x xs ih =>
      intro seen
      by_cases hx : x ∈ seen
      · rw [dedupGo, if_pos hx, ih seen]
        by_cases hax : a = x
        · subst hax; simp [hx]
        · simp [hax]
      · rw [dedupGo, if_neg hx]
        simp only [List.mem_cons, ih (x :: seen), List.mem_cons]
        by_cases hax : a = x
        · subst hax; simp [hx]
        · simp [hax]

theorem dedupGo_sublist {α : Type} [DecidableEq α] :
    ∀ (l seen : List α), (dedupGo seen l).Sublist l := by
  intro l
  induction l with
  | nil => intro seen; simp [dedupGo]
  | cons x xs ih =>
      intro seen
      by_cases hx : x ∈ seen
      · rw [dedupGo, if_pos hx]
        exact (ih seen).cons x
      · rw [dedupGo, if_neg hx]
        exact (ih (x :: seen)).cons₂ x

theorem dedupGo_nodup {α : Type} [DecidableEq α] :
    ∀ (l seen : List α), (dedupGo seen l).Nodup := by
  intro l
  induction l with
  | nil => intro seen; simp [dedupGo]
  | cons x xs ih =>
      intro seen
      by_cases hx : x ∈ seen
      · rw [dedupGo, if_pos hx]; exact ih seen
      · rw [dedupGo, if_neg hx]
        refine List.nodup_cons.mpr ⟨?_, ih (x :: seen)⟩
        intro hc
        exact ((mem_dedupGo x xs (x :: seen)).mp hc).2 (List.mem_cons_self x seen)

theorem dedupGo_eq_filter {α : Type} [DecidableEq α] :
    ∀ (l seen : List α),
      dedupGo seen l = (dedupSpec l).filter (fun a => decide (a ∉ seen)) := by
  intro l
  induction l with
  | nil => intro seen; rfl
  | cons x xs ih =>
      intro seen
      by_cases hx : x ∈ seen
      · rw [dedupGo, if_pos hx, ih seen, dedupSpec, List.filter_cons]
        have hxd : decide (x ∉ seen) = false := by simp [hx]
        rw [hxd]
        simp only [Bool.false_eq_true, if_false, List.filter_filter]
        apply List.filter_congr
        intro a _
        by_cases ha : a ∈ seen
        · simp [ha]
        · have hax : a ≠ x := fun h => ha (h ▸ hx)
          simp [ha, hax]
      · rw [dedupGo, if_neg hx, ih (x :: seen), dedupSpec, List.filter_cons]
        have hxd : decide (x ∉ seen) = true := by simp [hx]
        rw [hxd]
        simp only [if_true, List.filter_filter]
        congr 1
        apply List.filter_congr
        intro a _
        by_cases hax : a = x
        · subst hax; simp
        · by_cases ha : a ∈ seen <;> simp [hax, ha]

/-- **C8**: `drop_duplicates` removes exactly the rows identical to an
earlier row (it equals the specification's recursive description),
keeps a subsequence of the input (first occurrences, relative order
preserved), loses no value, and leaves no duplicates. -/
theorem claim_C8_drop_duplicates {α : Type} [DecidableEq α] (l : List α) :
    drop_duplicates l = dedupSpec l ∧
    (drop_duplicates l).Sublist l ∧
    (∀ a : α, a ∈ drop_duplicates l ↔ a ∈ l) ∧
    (drop_duplicates l).Nodup := by
  refine ⟨?_, dedupGo_sublist l [], ?_, dedupGo_nodup l []⟩
  · rw [drop_duplicates, dedupGo_eq_filter l []]
    apply List.filter_eq_self.mpr
    intro a _
    simp
  · intro a
    rw [drop_duplicates, mem_dedupGo a l []]
    simp

/-- **C8** instance: the specification's example, rows encoded as pairs:
deduplicating `[{a:1,b:2}, {a:1,b:2}, {a:3,b:4}]` keeps the first and
third rows. -/
theorem claim_C8_example :
    drop_duplicates [(1, 2), (1, 2), (3, 4)] = [(1, 2), (3, 4)] :=
  (claim_C8_drop_duplicates [((1 : ℕ), (2 : ℕ)), (1, 2), (3, 4)]).1.trans (by decide)

/-- **C1** counterexample: on a dataset whose single row is missing only
its `city` value (all three numeric cells present), the claim says the
row is retained, but `clean` with the drop-rows strategy removes it:
`data.dropna()` drops on a missing value in ANY column. -/
theorem claim_C1_counterexample :
    clean .dropRows [rowX] = .ok [] ∧ dropRowsSpec [rowX] = [rowX] := by
  constructor <;> rfl

/-- **C1** (amended): the drop-rows strategy removes exactly the rows
with at least one missing value in ANY column of the schema (not only
the three numeric ones); the surviving rows keep their relative order. -/
theorem claim_C1_dropRows (data : List Row) :
    clean .dropRows data = .ok (dropna data) ∧
    (dropna data).Sublist data ∧
    (∀ r : Row, r ∈ dropna data ↔ r ∈ data ∧ r.city.isSome = true ∧
      r.pollutant_id.isSome = true ∧ r.pollutant_min.isSome = true ∧
      r.pollutant_max.isSome = true ∧ r.pollutant_avg.isSome = true) := by
  refine ⟨rfl, List.filter_sublist _, ?_⟩
  intro r
  rw [dropna, List.mem_filter]
  simp [rowHasNA, and_assoc]

/-! ## Lemmas about ranking and grouping -/

theorem insertLe_rankAsc {K : Type} [LinearOrder K] (x : K × ℚ) :
    ∀ s : List (K × ℚ), s.Pairwise rankAsc → (∀ y ∈ s, x.1 < y.1) →
      (insertLe (fun a b => decide (a.2 ≤ b.2)) x s).Pairwise rankAsc := by
  intro s
  induction s with
  | nil =>
      intro _ _
      simp [insertLe]
  | cons y ys ih =>
      intro hs hx
      rcases List.pairwise_cons.mp hs with ⟨hy, hys⟩
      by_cases hle : (decide (x.2 ≤ y.2) : Bool) = true
      · rw [insertLe, if_pos hle]
        have hxy : x.2 ≤ y.2 := by simpa using hle
        refine List.pairwise_cons.mpr ⟨?_, hs⟩
        intro z hz
        rcases List.mem_cons.mp hz with rfl | hz
        · rcases lt_or_eq_of_le hxy with h | h
          · exact Or.inl h
          · exact Or.inr ⟨h, hx z (List.mem_cons_self _ _)⟩
        · rcases hy z hz with h | ⟨heq, _⟩
          · exact Or.inl (lt_of_le_of_lt hxy h)
          · have hxz : x.2 ≤ z.2 := by rw [← heq]; exact hxy
            rcases lt_or_eq_of_le hxz with h2 | h2
            · exact Or.inl h2
            · exact Or.inr ⟨h2, hx z (List.mem_cons_of_mem _ hz)⟩
      · rw [insertLe, if_neg hle]
        have hyx : y.2 < x.2 := lt_of_not_le (by simpa using hle)
        refine List.pairwise_cons.mpr
          ⟨?_, ih hys (fun z hz => hx z (List.mem_cons_of_mem _ hz))⟩
        intro w hw
        rcases (mem_insertLe _ x w ys).mp hw with rfl | hw
        · exact Or.inl hyx
        · exact hy w hw

/-- On a view with strictly ascending keys (as `groupby` produces),
the stable ascending sort orders entries by value ascending with ties
in their input order, i.e. broken by key ascending. -/
theorem isortAsc_rank {K : Type} [LinearOrder K] (view : List (K × ℚ))
    (hk : view.Pairwise (fun a b => a.1 < b.1)) :
    (isortBy (fun a b => decide (a.2 ≤ b.2)) view).Pairwise rankAsc := by
  induction view with
  | nil => simp [isortBy]
  | cons v vs ih =>
      rcases List.pairwise_cons.mp hk with ⟨hv, hvs⟩
      rw [isortBy]
      apply insertLe_rankAsc v _ (ih hvs)
      intro y hy
      exact hv y ((mem_isortBy _ _ _).mp hy)

/-- On a view with strictly ascending keys, the reversed ascending sort
(i.e. the program's descending sort) orders entries by value strictly
descending with tied values in reverse input order: ties broken by key
strictly DESCENDING. -/
theorem sortValuesDesc_rank {K : Type} [LinearOrder K] (view : List (K × ℚ))
    (hk : view.Pairwise (fun a b => a.1 < b.1)) :
    (sortValuesDesc view).Pairwise rankRev := by
  rw [sortValuesDesc, List.pairwise_reverse]
  exact (isortAsc_rank view hk).imp
    (fun h => h.imp id (fun h2 => ⟨h2.1.symm, h2.2⟩))

/-- **C5** counterexample: on the tied key-ascending view
`[(0, 2), (1, 2)]`, `TopN` returns the tied entries with keys
DESCENDING (`[(1, 2), (0, 2)]`), not ascending as the claim states
(pandas reverses an ascending argsort to sort descending); and pandas
`head(-1)` returns all but the last entry, so `TopN` with `n = -1 ≤ 0`
does NOT yield the empty sequence. -/
theorem claim_C5_counterexample :
    topN [((0 : ℕ), (2 : ℚ)), (1, 2)] 2 = [(1, 2), (0, 2)] ∧
    topN [((0 : ℕ), (1 : ℚ)), (1, 2)] (-1) = [(1, 2)] := by
  constructor <;> decide

/-- **C5** (amended): on a view with strictly ascending keys, `TopN`
sorts the entries by value descending — a permutation of the view, with
tied values in reverse input order, i.e. ties broken by key DESCENDING,
since the program reverses a (model: stable) ascending sort — and
truncates to the first `n` entries when `n ≥ 0` (so at most `n`
survive, and `n = 0` yields the empty sequence); for `n < 0` it instead
returns all but the last `|n|` entries, pandas `head` semantics. -/
theorem claim_C5_topN {K : Type} [LinearOrder K] (view : List (K × ℚ)) (n : ℤ)
    (hk : view.Pairwise (fun a b => a.1 < b.1)) :
    (sortValuesDesc view).Perm view ∧
    (sortValuesDesc view).Pairwise (fun a b => b.2 ≤ a.2) ∧
    (sortValuesDesc view).Pairwise rankRev ∧
    (0 ≤ n → topN view n = (sortValuesDesc view).take n.toNat ∧
      (topN view n).length ≤ n.toNat) ∧
    topN view 0 = [] ∧
    (n < 0 → topN view n =
      (sortValuesDesc view).take (view.length - (-n).toNat)) := by
  have hperm : (sortValuesDesc view).Perm view := by
    rw [sortValuesDesc]
    exact (List.reverse_perm _).trans (isortBy_perm _ view)
  have hrank : (sortValuesDesc view).Pairwise rankRev :=
    sortValuesDesc_rank view hk
  refine ⟨hperm, ?_, hrank, ?_, ?_, ?_⟩
  · refine hrank.imp ?_
    rintro a b (h | ⟨h, _⟩)
    · exact le_of_lt h
    · exact le_of_eq h.symm
  · intro hn
    constructor
    · rw [topN, pdHead, if_pos hn]
    · rw [topN, pdHead, if_pos hn]
      exact List.length_take_le _ _
  · rw [topN, pdHead, if_pos (le_refl (0 : ℤ))]
    simp
  · intro hn
    rw [topN, pdHead, if_neg (not_le.mpr hn), hperm.length_eq]

/-- **C5** witness: a concrete key-ascending view with a value tie; the
sorted view is a ranked permutation (tie `0`/`1` broken by key
descending) and `TopN` with `n = 2` takes its first two entries. -/
theorem claim_C5_witness :
    (sortValuesDesc [((0 : ℕ), (2 : ℚ)), (1, 2), (2, 1)]).Pairwise rankRev ∧
    topN [((0 : ℕ), (2 : ℚ)), (1, 2), (2, 1)] 2 =
      (sortValuesDesc [((0 : ℕ), (2 : ℚ)), (1, 2), (2, 1)]).take (Int.toNat 2) := by
  have H := claim_C5_topN [((0 : ℕ), (2 : ℚ)), (1, 2), (2, 1)] 2 (by decide)
  exact ⟨H.2.2.1, (H.2.2.2.1 (by decide)).1⟩

theorem lookupKey_map_self {K : Type} [DecidableEq K] (k : K)
    (f : K → Option ℚ) :
    ∀ ks : List K, k ∈ ks →
      lookupKey k (ks.map (fun a => (a, f a))) = some (f k) := by
  intro ks
  induction ks with
  | nil => intro h; simp at h
  | cons a rest ih =>
      intro hk
      simp only [List.map_cons, lookupKey]
      by_cases hak : a = k
      · rw [if_pos hak, hak]
      · rw [if_neg hak]
        apply ih
        rcases List.mem_cons.mp hk with rfl | h
        · exact absurd rfl hak
        · exact h

theorem mem_keysOf {K : Type} [LinearOrder K] [DecidableEq K]
    (rows : List (K × Option ℚ)) (k : K) :
    k ∈ keysOf rows ↔ k ∈ rows.map Prod.fst := by
  rw [keysOf, mem_isortBy, drop_duplicates, mem_dedupGo]
  simp

/-- **C9**: group-by mean maps every key occurring in the rows, whose
group has at least one non-missing value, to the arithmetic mean of the
group's non-missing values (missing values are ignored). -/
theorem claim_C9_group_mean {K : Type} [LinearOrder K] [DecidableEq K]
    (rows : List (K × Option ℚ)) (k : K)
    (hk : k ∈ rows.map Prod.fst) (hv : groupVals rows k ≠ []) :
    lookupKey k (groupbyMean rows) =
      some (some ((groupVals rows k).sum / (groupVals rows k).length)) := by
  rw [groupbyMean, lookupKey_map_self k _ _ ((mem_keysOf rows k).mpr hk),
    colMean, if_neg hv]

unseal Rat.mul Rat.add Rat.sub Rat.inv in
/-- **C9** witness: the specification's example (keys encoded as
numbers): grouping `[(A,10), (A,20), (B,5)]` by key and averaging
yields `15` for key `A`. -/
theorem claim_C9_witness :
    lookupKey 0 (groupbyMean [((0 : ℕ), some (10 : ℚ)), (0, some 20),
      (1, some 5)]) = some (some 15) := by
  have H := claim_C9_group_mean
    [((0 : ℕ), some (10 : ℚ)), (0, some 20), (1, some 5)] 0
    (by decide) (by decide)
  rw [H]
  decide

/-! ## Lemmas about outlier detection -/

theorem naLt_none_left (b : Option ℚ) : naLt none b = false := by
  cases b <;> rfl

theorem naLt_none_right (a : Option ℚ) : naLt a none = false := by
  cases a <;> rfl

theorem naLe_none_left (b : Option ℚ) : naLe none b = false := by
  cases b <;> rfl

theorem naLe_none_right (a : Option ℚ) : naLe a none = false := by
  cases a <;> rfl

/-- **C10**: a row with a missing `pollutant_avg` lands in neither the
outlier partition (strict comparisons with `NaN` are false) nor the
clean partition (inclusive comparisons with `NaN` are false), so with a
missing value present the two partitions do not cover the dataset. -/
theorem claim_C10_missing_in_neither (rows : List Row) (r : Row)
    (hr : r ∈ rows) (hm : r.pollutant_avg = none) :
    r ∉ outlierRows rows ∧ r ∉ cleanRows rows ∧
    ¬(∀ s ∈ rows, s ∈ outlierRows rows ∨ s ∈ cleanRows rows) := by
  have ho : r ∉ outlierRows rows := by
    intro hc
    have hpred := (List.mem_filter.mp hc).2
    rw [hm, naLt_none_left, naLt_none_right] at hpred
    simp at hpred
  have hcl : r ∉ cleanRows rows := by
    intro hc
    have hpred := (List.mem_filter.mp hc).2
    rw [hm, naLe_none_left, naLe_none_right] at hpred
    simp at hpred
  refine ⟨ho, hcl, fun hall => ?_⟩
  rcases hall r hr with h | h
  · exact ho h
  · exact hcl h

/-- **C10** witness: the concrete row with a missing `pollutant_avg` is
in neither partition of its dataset. -/
theorem claim_C10_witness :
    rowNA ∉ outlierRows [rowNA, mkRow 1] ∧ rowNA ∉ cleanRows [rowNA, mkRow 1] :=
  ⟨(claim_C10_missing_in_neither [rowNA, mkRow 1] rowNA (by decide) rfl).1,
    (claim_C10_missing_in_neither [rowNA, mkRow 1] rowNA (by decide) rfl).2.1⟩

/-- **C6**: on a non-empty dataset whose `pollutant_avg` values are all
present, the bounds are `Q1 - 1.5·IQR` and `Q3 + 1.5·IQR` with `Q1`,
`Q3` the linear-interpolation percentiles of the column, a row is an
outlier iff its value is strictly outside the bounds, and clean iff its
value is inside the bounds, inclusive. -/
theorem claim_C6_detectOutliers (rows : List Row) (h0 : rows ≠ [])
    (hp : ∀ r ∈ rows, (r.pollutant_avg).isSome = true) :
    q1B rows = some (npPercentile ((avgColumn rows).filterMap id) 25) ∧
    q3B rows = some (npPercentile ((avgColumn rows).filterMap id) 75) ∧
    lowerB rows = some ((q1B rows).getD 0 -
      3 / 2 * ((q3B rows).getD 0 - (q1B rows).getD 0)) ∧
    upperB rows = some ((q3B rows).getD 0 +
      3 / 2 * ((q3B rows).getD 0 - (q1B rows).getD 0)) ∧
    ∀ r ∈ rows,
      (r ∈ outlierRows rows ↔
        ((r.pollutant_avg).getD 0 < (lowerB rows).getD 0 ∨
          (upperB rows).getD 0 < (r.pollutant_avg).getD 0)) ∧
      (r ∈ cleanRows rows ↔
        ((lowerB rows).getD 0 ≤ (r.pollutant_avg).getD 0 ∧
          (r.pollutant_avg).getD 0 ≤ (upperB rows).getD 0)) := by
  have hcond : ¬(avgColumn rows = [] ∨
      (avgColumn rows).any (fun v => v.isNone) = true) := by
    rintro (h | h)
    · exact h0 (by simpa [avgColumn] using h)
    · rcases List.any_eq_true.mp h with ⟨x, hx, hxn⟩
      rcases List.mem_map.mp hx with ⟨r, hrr, rfl⟩
      have := hp r hrr
      replace hxn := Option.isNone_iff_eq_none.mp hxn
      rw [hxn] at this
      simp at this
  have hq1 : q1B rows = some (npPercentile ((avgColumn rows).filterMap id) 25) := by
    rw [q1B, npPercentileNaN, if_neg hcond]
  have hq3 : q3B rows = some (npPercentile ((avgColumn rows).filterMap id) 75) := by
    rw [q3B, npPercentileNaN, if_neg hcond]
  have hlow : lowerB rows = some ((q1B rows).getD 0 -
      3 / 2 * ((q3B rows).getD 0 - (q1B rows).getD 0)) := by
    rw [lowerB, hq1, hq3]
    simp
  have hup : upperB rows = some ((q3B rows).getD 0 +
      3 / 2 * ((q3B rows).getD 0 - (q1B rows).getD 0)) := by
    rw [upperB, hq1, hq3]
    simp
  refine ⟨hq1, hq3, hlow, hup, ?_⟩
  intro r hr
  rcases Option.isSome_iff_exists.mp (hp r hr) with ⟨v, hv⟩
  constructor
  · rw [outlierRows, List.mem_filter]
    simp only [hr, true_and, hv, hlow, hup, naLt, Option.getD_some]
    simp
  · rw [cleanRows, List.mem_filter]
    simp only [hr, true_and, hv, hlow, hup, naLe, Option.getD_some]
    simp

unseal Rat.mul Rat.add Rat.sub Rat.inv in
/-- **C6** witness: on the specification's example column
`[1,2,3,4,5,100]`, the row with value `100` is flagged as an outlier
and excluded from the clean partition. -/
theorem claim_C6_witness :
    mkRow 100 ∈ outlierRows rows6 ∧ mkRow 100 ∉ cleanRows rows6 := by
  have H := claim_C6_detectOutliers rows6 (by decide) (by decide)
  have H2 := H.2.2.2.2 (mkRow 100) (by decide)
  exact ⟨H2.1.mpr (by decide), fun hc => absurd (H2.2.mp hc) (by decide)⟩

/-! ## Lemmas about the Pearson correlation -/

theorem pairwiseComplete_self (xs : List (Option ℚ)) :
    pairwiseComplete xs xs = (xs.filterMap id).map (fun a => (a, a)) := by
  induction xs with
  | nil => rfl
  | cons x xs ih =>
      cases x <;>
        simp only [pairwiseComplete, List.zip_cons_cons, List.filterMap_cons,
          List.map_cons] at * <;>
        simp [ih]

theorem map_fst_diag (l : List ℚ) :
    ((l.map (fun a => (a, a))).map Prod.fst) = l := by
  induction l with
  | nil => rfl
  | cons a l ih => simp [ih]

theorem map_snd_diag (l : List ℚ) :
    ((l.map (fun a => (a, a))).map Prod.snd) = l := by
  induction l with
  | nil => rfl
  | cons a l ih => simp [ih]

theorem sxy_diag (l : List ℚ) :
    sxy (l.map (fun a => (a, a))) = sxx (l.map (fun a => (a, a))) := by
  simp only [sxy, sxx]
  rw [map_fst_diag, map_snd_diag, List.map_map, List.map_map]
  congr 1
  apply List.map_congr_left
  intro a _
  simp
  ring

theorem syy_diag (l : List ℚ) :
    syy (l.map (fun a => (a, a))) = sxx (l.map (fun a => (a, a))) := by
  simp only [syy, sxx]
  rw [map_fst_diag, map_snd_diag, List.map_map, List.map_map]
  congr 1

theorem sxx_nonneg (ps : List (ℚ × ℚ)) : 0 ≤ sxx ps := by
  apply List.sum_nonneg
  intro x hx
  rcases List.mem_map.mp hx with ⟨p, _, rfl⟩
  positivity

theorem pairwiseComplete_swap (xs ys : List (Option ℚ)) :
    pairwiseComplete ys xs = (pairwiseComplete xs ys).map Prod.swap := by
  rw [pairwiseComplete, pairwiseComplete, ← List.zip_swap xs ys,
    List.filterMap_map, List.map_filterMap]
  have hfun : ∀ p : Option ℚ × Option ℚ,
      ((fun q : Option ℚ × Option ℚ =>
        match q.1, q.2 with
        | some a, some b => some (a, b)
        | _, _ => none) ∘ Prod.swap) p =
      (Option.map Prod.swap)
        (match p.1, p.2 with
         | some a, some b => some (a, b)
         | _, _ => none) := by
    rintro ⟨a, b⟩
    cases a <;> cases b <;> rfl
  exact List.filterMap_congr (fun p _ => hfun p)

theorem map_fst_swap {β γ : Type} (ps : List (β × γ)) :
    ((ps.map Prod.swap).map Prod.fst) = ps.map Prod.snd := by
  induction ps with
  | nil => rfl
  | cons p ps ih => simp [ih]

theorem map_snd_swap {β γ : Type} (ps : List (β × γ)) :
    ((ps.map Prod.swap).map Prod.snd) = ps.map Prod.fst := by
  induction ps with
  | nil => rfl
  | cons p ps ih => simp [ih]

theorem sxx_swap (ps : List (ℚ × ℚ)) : sxx (ps.map Prod.swap) = syy ps := by
  simp only [sxx, syy]
  rw [map_fst_swap, List.map_map]
  congr 1

theorem syy_swap (ps : List (ℚ × ℚ)) : syy (ps.map Prod.swap) = sxx ps := by
  simp only [sxx, syy]
  rw [map_snd_swap, List.map_map]
  congr 1

theorem sxy_swap (ps : List (ℚ × ℚ)) : sxy (ps.map Prod.swap) = sxy ps := by
  simp only [sxy]
  rw [map_fst_swap, map_snd_swap, List.map_map]
  congr 1
  apply List.map_congr_left
  intro p _
  simp
  ring

theorem corrEntry_symm (xs ys : List (Option ℚ)) :
    corrEntry xs ys = corrEntry ys xs := by
  simp only [corrEntry]
  rw [pairwiseComplete_swap xs ys, sxx_swap, syy_swap, sxy_swap,
    mul_comm (syy (pairwiseComplete xs ys)) (sxx (pairwiseComplete xs ys))]

theorem corrEntry_diag_one (xs : List (Option ℚ))
    (h : sxx (pairwiseComplete xs xs) ≠ 0) : corrEntry xs xs = some 1 := by
  have hd := pairwiseComplete_self xs
  have hyy : syy (pairwiseComplete xs xs) = sxx (pairwiseComplete xs xs) := by
    rw [hd, syy_diag]
  have hxy : sxy (pairwiseComplete xs xs) = sxx (pairwiseComplete xs xs) := by
    rw [hd, sxy_diag]
  have hpos : (0 : ℚ) < sxx (pairwiseComplete xs xs) :=
    lt_of_le_of_ne (sxx_nonneg _) (Ne.symm h)
  simp only [corrEntry, hyy, hxy]
  rw [if_neg (by positivity)]
  congr 1
  rw [Rat.cast_mul]
  rw [Real.sqrt_mul_self (by exact_mod_cast le_of_lt hpos)]
  apply div_self
  exact_mod_cast h

theorem corrEntry_diag_none (xs : List (Option ℚ))
    (h : sxx (pairwiseComplete xs xs) = 0) : corrEntry xs xs = none := by
  simp only [corrEntry]
  rw [if_pos (by rw [h]; ring)]

unseal Rat.mul Rat.add Rat.sub Rat.inv in
/-- **C7** counterexample: the off-diagonal entry of two IDENTICAL
constant columns is `NaN` (undefined), not `1.0`: the divisor
`sqrt(sxx·syy)` is zero, so pandas `corr` yields `NaN` there. -/
theorem claim_C7_counterexample :
    colOpt [mkRow 1, mkRow 1] .pmin = colOpt [mkRow 1, mkRow 1] .pmax ∧
    corrMatrixEntry [mkRow 1, mkRow 1] .pmin .pmax = none := by
  constructor
  · rfl
  · show corrEntry [some 1, some 1] [some 1, some 1] = none
    have h0 : sxx (pairwiseComplete [some 1, some 1] [some 1, some 1]) = 0 := by
      decide
    simp only [corrEntry]
    rw [if_pos (by rw [h0, zero_mul])]

/-- **C7** (amended): every entry of the correlation matrix is
symmetric; a diagonal entry is `1.0` exactly when its column has
nonzero variance (nonzero centred square sum) and is undefined (`NaN`)
when the variance is zero; and the off-diagonal entry of two identical
columns OF NONZERO VARIANCE is `1.0`. -/
theorem claim_C7_corr (data : List Row) (c c' : NumCol) :
    corrMatrixEntry data c c' = corrMatrixEntry data c' c ∧
    (sxx (pairwiseComplete (colOpt data c) (colOpt data c)) ≠ 0 →
      corrMatrixEntry data c c = some 1) ∧
    (sxx (pairwiseComplete (colOpt data c) (colOpt data c)) = 0 →
      corrMatrixEntry data c c = none) ∧
    (colOpt data c = colOpt data c' →
      sxx (pairwiseComplete (colOpt data c) (colOpt data c)) ≠ 0 →
      corrMatrixEntry data c c' = some 1) := by
  refine ⟨corrEntry_symm _ _, fun h => corrEntry_diag_one _ h,
    fun h => corrEntry_diag_none _ h, fun heq h => ?_⟩
  rw [corrMatrixEntry, ← heq]
  exact corrEntry_diag_one _ h

unseal Rat.mul Rat.add Rat.sub Rat.inv in
/-- **C7** witness: on a two-row dataset whose `pollutant_avg` column is
`[1, 2]` (nonzero variance), the diagonal entry for that column is
`1.0`. -/
theorem claim_C7_witness :
    corrMatrixEntry [mkRow 1, mkRow 2] .pavg .pavg = some 1 :=
  (claim_C7_corr [mkRow 1, mkRow 2] .pavg .pavg).2.1 (by decide)

end Pipeline
